import Mathlib

/-!
Verification of the `pix` post-generation pipeline (`src/main.rs`).

Strings are modelled as `List Char` (Rust `&str` over Unicode scalar values).
`chrono::NaiveDate` is modelled as the signed count of days since 1970-01-01
(chrono's internal representation is an equivalent day-precision calendar
date); `chrono::NaiveDateTime` as a day count plus seconds-of-day.  The
conversions between day counts and civil `(year, month, day)` triples follow
the standard proleptic-Gregorian algorithms, matching chrono's calendar.

The directory, standard input, the stop-word list (an asset of the
`stop_words` crate) and the rendered template text (asset `assets/post.md`)
are external to `src/main.rs`; they enter the model as explicit parameters
(directory entries, the list of typed lines, the stop-word set), and a
written post is recorded as its file name together with the exact values
bound into the template.
-/

namespace Pix

/-! ## Character classes -/

/-- ASCII-only case folding of one character, as Rust's
`char::to_ascii_lowercase` used by `str::to_ascii_lowercase`
(`main.rs` line 147): `A`..`Z` map to `a`..`z`, all else is unchanged. -/
def toAsciiLower (c : Char) : Char :=
  if 65 ≤ c.toNat ∧ c.toNat ≤ 90 then Char.ofNat (c.toNat + 32) else c

/-- The POSIX `[:punct:]` class matched by `human_regex::punctuation()`
(`main.rs` line 118): the 32 non-alphanumeric printable ASCII characters. -/
def isPunct (c : Char) : Bool :=
  (33 ≤ c.toNat && c.toNat ≤ 47) || (58 ≤ c.toNat && c.toNat ≤ 64) ||
    (91 ≤ c.toNat && c.toNat ≤ 96) || (123 ≤ c.toNat && c.toNat ≤ 126)

/-- The Unicode `White_Space` property, as Rust's `char::is_whitespace`
used by `str::split_whitespace` (`main.rs` line 152). -/
def wsChar (c : Char) : Bool :=
  (9 ≤ c.toNat && c.toNat ≤ 13) || c.toNat == 32 || c.toNat == 0x85 ||
    c.toNat == 0xA0 || c.toNat == 0x1680 ||
    (0x2000 ≤ c.toNat && c.toNat ≤ 0x200A) || c.toNat == 0x2028 ||
    c.toNat == 0x2029 || c.toNat == 0x202F || c.toNat == 0x205F ||
    c.toNat == 0x3000

/-! ## Tag extraction (`main.rs` lines 146-155) -/

/-- Effect of `regex.replace_all(text, "")` for the regex
`one_or_more(punctuation())` (`main.rs` lines 118, 148-149): the matches of
`[[:punct:]]+` are the maximal punctuation runs, so replacing every match
with the empty string deletes exactly the punctuation characters.
`replacePunctRuns` below spells out the run-by-run replacement and is proved
equal to this character filter. -/
def remove_punctuation (text : List Char) : List Char :=
  text.filter fun c => !isPunct c

/-- Literal run-by-run semantics of `replace_all` with an empty replacement:
each maximal run of one-or-more punctuation characters is replaced by the
empty string. -/
def replacePunctRuns : List Char → List Char
  | [] => []
  | c :: cs =>
    if isPunct c then replacePunctRuns (cs.dropWhile isPunct)
    else c :: replacePunctRuns cs
  termination_by l => l.length
  decreasing_by
  · have h := List.takeWhile_append_dropWhile isPunct cs
    have h2 : (cs.dropWhile isPunct).length ≤ cs.length := by
      calc (cs.dropWhile isPunct).length
          ≤ (cs.takeWhile isPunct).length + (cs.dropWhile isPunct).length :=
            Nat.le_add_left _ _
        _ = cs.length := by rw [← List.length_append, h]
    simpa using Nat.lt_succ_of_le h2
  · simp

/-- Rust's `str::split_whitespace` (`main.rs` line 152): split at whitespace
characters and drop the empty fragments, preserving the order of the
remaining tokens. -/
def split_whitespace (l : List Char) : List (List Char) :=
  (l.splitOnP wsChar).filter fun t => !t.isEmpty

/-- The tag-extraction pipeline of `main.rs` lines 146-155: ASCII-lowercase
the description, delete the punctuation (the effect of replacing every
`[[:punct:]]+` match with the empty string), split on whitespace, and keep
the tokens that are not in the stop-word set, in order, without
deduplication (`Vec::contains` is a linear equality scan). -/
def extract_tags (stops : List (List Char)) (text : List Char) :
    List (List Char) :=
  (split_whitespace (remove_punctuation (text.map toAsciiLower))).filter
    fun t => !stops.contains t

/-- Reference definition from the specification, section 4.3: lowercase the
text (ASCII-only case folding); replace every maximal run of one-or-more
punctuation characters with the empty string; split on whitespace into
tokens preserving order; filter out any token present in the stop-word set;
the remaining tokens, in original order, are the tags. -/
def extract_tags_spec (stops : List (List Char)) (text : List Char) :
    List (List Char) :=
  (split_whitespace (replacePunctRuns (text.map toAsciiLower))).filter
    fun t => !stops.contains t

/-- Joining a token sequence with single spaces (the operation named by the
idempotence property of specification section 8). -/
def joinSpaces : List (List Char) → List Char
  | [] => []
  | [t] => t
  | t :: ts => t ++ ' ' :: joinSpaces ts

/-! ## Calendar dates and weekdays -/

/-- Weekdays, as `chrono::Weekday`. -/
inductive Weekday where
  | mon | tue | wed | thu | fri | sat | sun
  deriving DecidableEq, Repr

/-- Weekday of day `k` of a week starting on Sunday. -/
def weekdayOfNat : Nat → Weekday
  | 0 => .sun
  | 1 => .mon
  | 2 => .tue
  | 3 => .wed
  | 4 => .thu
  | 5 => .fri
  | _ => .sat

/-- Weekday of the date `z` days after 1970-01-01 (a Thursday). -/
def weekday (z : Int) : Weekday :=
  weekdayOfNat ((z + 4) % 7).toNat

/-- Index used by `weekday`: the distance from Sunday. -/
def wdIndex : Weekday → Int
  | .sun => 0
  | .mon => 1
  | .tue => 2
  | .wed => 3
  | .thu => 4
  | .fri => 5
  | .sat => 6

/-- Day count since 1970-01-01 of the proleptic-Gregorian civil date
`y-m-d` (Howard Hinnant's `days_from_civil`; `Int` division is Euclidean,
which coincides with floor division for the positive divisors used here). -/
def daysFromCivil (y : Int) (m d : Nat) : Int :=
  let yAdj : Int := if m ≤ 2 then y - 1 else y
  let era : Int := yAdj / 400
  let yoe : Nat := (yAdj - era * 400).toNat
  let mp : Nat := (m + 9) % 12
  let doy : Nat := (153 * mp + 2) / 5 + d - 1
  let doe : Nat := yoe * 365 + yoe / 4 - yoe / 100 + doy
  era * 146097 + (doe : Int) - 719468

/-- Civil date `(y, m, d)` of the day `z` days after 1970-01-01 (Howard
Hinnant's `civil_from_days`). -/
def civilFromDays (z : Int) : Int × Nat × Nat :=
  let zs : Int := z + 719468
  let era : Int := zs / 146097
  let doe : Nat := (zs - era * 146097).toNat
  let yoe : Nat := (doe - doe / 1460 + doe / 36524 - doe / 146096) / 365
  let doy : Nat := doe - (365 * yoe + yoe / 4 - yoe / 100)
  let mp : Nat := (5 * doy + 2) / 153
  let d : Nat := doy - (153 * mp + 2) / 5 + 1
  let m : Nat := if mp < 10 then mp + 3 else mp - 9
  let y : Int := (yoe : Int) + era * 400
  (if m ≤ 2 then y + 1 else y, m, d)

/-- Decimal digits of `n`, most significant first. -/
def decDigits (n : Nat) : List Char :=
  Nat.toDigits 10 n

/-- Zero-pad a decimal rendering to two characters (chrono's `%m`, `%d`,
`%H`, `%M`, `%S`). -/
def pad2 (n : Nat) : List Char :=
  if n < 10 then '0' :: decDigits n else decDigits n

/-- Zero-pad a decimal rendering to four characters (chrono's `%Y` for the
year range used here). -/
def pad4 (n : Nat) : List Char :=
  List.replicate (4 - (decDigits n).length) '0' ++ decDigits n

/-- Rendering of the year as chrono's `%Y` (negative years carry a sign). -/
def renderYear (y : Int) : List Char :=
  if y < 0 then '-' :: pad4 y.natAbs else pad4 y.toNat

/-- chrono's `Display` for `NaiveDate`: `%Y-%m-%d`. -/
def renderDate (z : Int) : List Char :=
  let c := civilFromDays z
  renderYear c.1 ++ '-' :: pad2 c.2.1 ++ '-' :: pad2 c.2.2

/-- chrono's `Display` for `NaiveTime` at whole seconds: `%H:%M:%S` (the
fractional part is omitted when the nanosecond field is zero, as it always
is here). -/
def renderTime (secs : Nat) : List Char :=
  pad2 (secs / 3600) ++ ':' :: pad2 (secs % 3600 / 60) ++ ':' :: pad2 (secs % 60)

/-- `chrono::NaiveDateTime`: a calendar day (days since 1970-01-01) plus a
seconds-of-day field. -/
structure DT where
  days : Int
  secs : Nat
  deriving DecidableEq, Repr

/-- chrono's `Display` for `NaiveDateTime`: the date, a space, the time
(`main.rs` line 176 formats `post_date_time` with `{}`). -/
def renderDateTime (dt : DT) : List Char :=
  renderDate dt.days ++ ' ' :: renderTime dt.secs

/-- `NaiveDateTime::timestamp`: Unix seconds of the naive datetime taken in
UTC (`main.rs` line 168). -/
def timestamp (dt : DT) : Int :=
  dt.days * 86400 + (dt.secs : Int)

/-- `date.and_time(NaiveTime::from_hms_opt(7, 0, 0))` (`main.rs` lines
123-124): the start datetime is the start date at the fixed time 07:00:00
(25200 seconds into the day). -/
def initDT (date : Int) : DT :=
  ⟨date, 25200⟩

/-- The date validation of `main.rs` lines 109-115: the start date must be a
Monday, Wednesday, or Friday (the specification's `validate_start`). -/
def validate_start (date : Int) : Bool :=
  decide (weekday date = .mon ∨ weekday date = .wed ∨ weekday date = .fri)

/-- The scheduler advance of `main.rs` lines 180-186: Monday and Wednesday
add two days, Friday adds three, with no transition defined for the other
weekdays (the `if`/`else if` falls through leaving the datetime unchanged). -/
def advance (dt : DT) : DT :=
  if weekday dt.days = .mon ∨ weekday dt.days = .wed then ⟨dt.days + 2, dt.secs⟩
  else if weekday dt.days = .fri then ⟨dt.days + 3, dt.secs⟩
  else dt

/-- `n`-fold application of `advance`. -/
def advanceN : Nat → DT → DT
  | 0, dt => dt
  | n + 1, dt => advanceN n (advance dt)

/-- The weekday invariant of the schedule cursor: Monday, Wednesday or
Friday. -/
def inMWF (w : Weekday) : Prop :=
  w = .mon ∨ w = .wed ∨ w = .fri

instance (w : Weekday) : Decidable (inMWF w) := by
  unfold inMWF; infer_instance

/-! ## File names: integer stems and `.jpg` suffixes -/

/-- Accumulate the value of a decimal digit string; `none` as soon as a
non-digit appears. -/
def parseDigitsAcc : List Char → Nat → Option Nat
  | [], acc => some acc
  | c :: cs, acc =>
    if 48 ≤ c.toNat ∧ c.toNat ≤ 57 then
      parseDigitsAcc cs (acc * 10 + (c.toNat - 48))
    else none

/-- Rust's `str::parse::<i32>` (`main.rs` line 131): an optional single sign
followed by at least one decimal digit, rejecting values outside the `i32`
range (checked accumulation only ever fails when the final value would be
out of range, since the accumulator is monotone). -/
def parseI32 (s : List Char) : Option Int :=
  match s with
  | [] => none
  | '+' :: rest =>
    match rest with
    | [] => none
    | _ => (parseDigitsAcc rest 0).bind fun n =>
        if n ≤ 2147483647 then some (n : Int) else none
  | '-' :: rest =>
    match rest with
    | [] => none
    | _ => (parseDigitsAcc rest 0).bind fun n =>
        if n ≤ 2147483648 then some (-(n : Int)) else none
  | _ => (parseDigitsAcc s 0).bind fun n =>
      if n ≤ 2147483647 then some (n : Int) else none

/-- Index of the last `.` in a file name, if any. -/
def lastDotIdx (l : List Char) : Option Nat :=
  match (l.reverse.findIdx? fun c => c == '.') with
  | none => none
  | some k => some (l.length - 1 - k)

/-- Rust's `Path::file_stem` on a plain file name (`main.rs` line 128): the
whole name when it has no `.`, or when its only `.` leads it (a hidden file
with no extension); otherwise the portion before the final `.`. -/
def file_stem (name : List Char) : List Char :=
  match lastDotIdx name with
  | none => name
  | some 0 => name
  | some j => name.take j

/-! ## File enumeration (`main.rs` lines 71-86) -/

/-- One `fs::read_dir` item: a readable entry carrying its file name, or an
entry that is skipped by the enumerator's `filter_map` (an `Err` item, or a
name that is not valid UTF-8 so `to_str` gives `None`). -/
inductive DirEntry where
  | readable (name : List Char)
  | unreadable
  deriving DecidableEq, Repr

/-- `get_jpg_files_in_current_directory` (`main.rs` lines 71-86), given the
directory listing: keep, in enumeration order, the names of the readable
entries that end with the literal suffix `.jpg`; skipped entries are
silently dropped.  (When the directory itself cannot be read the Rust
function returns an I/O error before this filtering; the callers `unwrap`
it, so the model takes a successfully read listing.) -/
def get_jpg_files_in_current_directory (entries : List DirEntry) :
    List (List Char) :=
  entries.filterMap fun e =>
    match e with
    | .readable name =>
      if ".jpg".data.isSuffixOf name then some name else none
    | .unreadable => none

/-! ## The post command (`main.rs` lines 108-190) -/

/-- One written post file: its name in the working directory
(`{post_date_time}-{file_name}.md`, `main.rs` line 176) and the exact values
bound into the fixed template (`main.rs` lines 165-170).  The rendered
markdown text is the template asset applied to these bindings; the asset is
outside `src/`, so a post is recorded by its bindings. -/
structure Post where
  fileName : List Char
  title : List Char
  significant_digit_title : List Char
  upload_date : Int
  description : List Char
  tags : List (List Char)
  deriving DecidableEq, Repr

/-- The post written for one image file `name` at schedule position `dt`,
with the typed alt-text line `desc` (`main.rs` lines 128-177):
`title` is the file stem, `significant_digit_title` the stem minus its last
two characters (`&file_name[..file_name.len() - 2]`), `upload_date` the Unix
timestamp of the scheduled datetime, `description` the raw line, `tags` the
extracted tags. -/
def mkPost (stops : List (List Char)) (dt : DT) (name desc : List Char) :
    Post :=
  ⟨renderDateTime dt ++ '-' :: file_stem name ++ ".md".data,
    file_stem name,
    (file_stem name).take ((file_stem name).length - 2),
    timestamp dt,
    desc,
    extract_tags stops desc⟩

/-- How a `post` run ends: normal completion, the `Err` return surfaced as a
CLI invalid-input error, or a Rust panic (an `unwrap` failure or the
out-of-bounds stem slice). -/
inductive RunOutcome where
  | ok
  | invalidInput (msg : List Char)
  | panicked
  deriving DecidableEq, Repr

/-- A `post` run observed from the working directory: the post files
written, in order, and how the run ended.  Files written before an error or
panic remain (nothing deletes them). -/
structure RunResult where
  written : List Post
  outcome : RunOutcome
  deriving DecidableEq, Repr

/-- The `Err` message for a start date that is not Monday, Wednesday or
Friday (`main.rs` line 114). -/
def dateErrMsg : List Char :=
  "Date must be a Monday, Wednesday, or Friday".data

/-- The `Err` message for a file stem that does not parse as an `i32`
(`main.rs` line 132). -/
def intErrMsg : List Char :=
  "File name must be an integer".data

/-- The per-file loop of `post` (`main.rs` lines 126-187), over the
enumerated file names and the remaining typed lines: parse the stem as an
`i32` and abort the run with an invalid-input error on failure; slice off
the last two stem characters (a panic when the stem is shorter than two
characters, by unsigned underflow of `file_name.len() - 2`); read one line
(a panic when input is exhausted); render and write the post; advance the
schedule and continue. -/
def postLoop (stops : List (List Char)) :
    DT → List (List Char) → List (List Char) → RunResult
  | _, [], _ => ⟨[], .ok⟩
  | dt, name :: files, descs =>
    if (parseI32 (file_stem name)).isNone then ⟨[], .invalidInput intErrMsg⟩
    else if (file_stem name).length < 2 then ⟨[], .panicked⟩
    else
      match descs with
      | [] => ⟨[], .panicked⟩
      | d :: ds =>
        let r := postLoop stops (advance dt) files ds
        ⟨mkPost stops dt name d :: r.written, r.outcome⟩

/-- The `post` command (`main.rs` lines 108-190), given the start date, the
directory listing and the lines available on standard input: validate that
the start date falls on Monday, Wednesday or Friday (otherwise return the
invalid-input error with nothing written), then run the per-file loop over
the enumerated `.jpg` files starting from the date at 07:00:00. -/
def post (stops : List (List Char)) (date : Int) (entries : List DirEntry)
    (descs : List (List Char)) : RunResult :=
  if validate_start date then
    postLoop stops (initDT date) (get_jpg_files_in_current_directory entries)
      descs
  else ⟨[], .invalidInput dateErrMsg⟩

/-- A file name whose stem both parses as an `i32` and is at least two
characters long: the per-file preconditions under which the loop body
reaches the write. -/
def validStem (name : List Char) : Prop :=
  (parseI32 (file_stem name)).isSome = true ∧ 2 ≤ (file_stem name).length

instance (name : List Char) : Decidable (validStem name) := by
  unfold validStem; infer_instance

/-- The posts a fully successful run writes: one per file, each rendered at
the current schedule position, the schedule advanced once per file. -/
def okRunPosts (stops : List (List Char)) :
    DT → List (List Char) → List (List Char) → List Post
  | _, [], _ => []
  | _, _ :: _, [] => []
  | dt, f :: fs, d :: ds => mkPost stops dt f d :: okRunPosts stops (advance dt) fs ds

/-! ## Lemmas: characters -/

theorem toNat_ofNat_valid (n : Nat) (h : n < 55296) : (Char.ofNat n).toNat = n := by
  have hv : n.isValidChar := Or.inl h
  simp [Char.ofNat, hv, Char.ofNatAux, Char.toNat, UInt32.toNat]

theorem toAsciiLower_idem (c : Char) :
    toAsciiLower (toAsciiLower c) = toAsciiLower c := by
  unfold toAsciiLower
  by_cases h : 65 ≤ c.toNat ∧ c.toNat ≤ 90
  · rw [if_pos h]
    have hv : (Char.ofNat (c.toNat + 32)).toNat = c.toNat + 32 :=
      toNat_ofNat_valid _ (by omega)
    rw [if_neg]
    rw [hv]
    omega
  · rw [if_neg h, if_neg h]

/-! ## Lemmas: punctuation-run replacement equals character deletion -/

theorem filter_not_dropWhile {α : Type} (p : α → Bool) (l : List α) :
    (l.dropWhile p).filter (fun c => !p c) = l.filter (fun c => !p c) := by
  induction l with
  | nil => rfl
  | cons c cs ih =>
    by_cases h : p c
    · simp [List.dropWhile_cons, h, List.filter_cons, ih]
    · simp [List.dropWhile_cons, h, List.filter_cons]

theorem replacePunctRuns_eq_filter (l : List Char) :
    replacePunctRuns l = l.filter fun c => !isPunct c := by
  induction l using replacePunctRuns.induct with
  | case1 => simp [replacePunctRuns]
  | case2 c cs hc ih =>
    rw [replacePunctRuns, if_pos hc, ih, List.filter_cons]
    simp [hc, filter_not_dropWhile]
  | case3 c cs hc ih =>
    rw [replacePunctRuns, if_neg hc, ih, List.filter_cons]
    simp [Bool.not_eq_true] at hc
    simp [hc]

/-! ## Lemmas: whitespace splitting -/

theorem mem_splitOnP_not {α : Type} {p : α → Bool} :
    ∀ {l t : List α}, t ∈ l.splitOnP p → ∀ c ∈ t, p c = false := by
  intro l
  induction l with
  | nil =>
    intro t ht c hc
    rw [List.splitOnP_nil, List.mem_singleton] at ht
    subst ht; cases hc
  | cons a l ih =>
    intro t ht c hc
    rw [List.splitOnP_cons] at ht
    by_cases ha : p a
    · rw [if_pos ha] at ht
      rcases List.mem_cons.mp ht with h | h
      · subst h; cases hc
      · exact ih h c hc
    · rw [if_neg ha] at ht
      obtain ⟨h0, ts, heq⟩ : ∃ h0 ts, l.splitOnP p = h0 :: ts := by
        cases hsp : l.splitOnP p with
        | nil => exact absurd hsp (List.splitOnP_ne_nil p l)
        | cons x xs => exact ⟨x, xs, rfl⟩
      rw [heq] at ht
      simp only [List.modifyHead] at ht
      rcases List.mem_cons.mp ht with h | h
      · subst h
        rcases List.mem_cons.mp hc with h | h
        · subst h; exact Bool.eq_false_iff.mpr ha
        · exact ih (heq ▸ List.mem_cons_self h0 ts) c h
      · exact ih (heq ▸ List.mem_cons_of_mem h0 h) c hc

theorem mem_splitOnP_mem {α : Type} {p : α → Bool} :
    ∀ {l t : List α}, t ∈ l.splitOnP p → ∀ c ∈ t, c ∈ l := by
  intro l
  induction l with
  | nil =>
    intro t ht c hc
    rw [List.splitOnP_nil, List.mem_singleton] at ht
    subst ht; cases hc
  | cons a l ih =>
    intro t ht c hc
    rw [List.splitOnP_cons] at ht
    by_cases ha : p a
    · rw [if_pos ha] at ht
      rcases List.mem_cons.mp ht with h | h
      · subst h; cases hc
      · exact List.mem_cons_of_mem a (ih h c hc)
    · rw [if_neg ha] at ht
      obtain ⟨h0, ts, heq⟩ : ∃ h0 ts, l.splitOnP p = h0 :: ts := by
        cases hsp : l.splitOnP p with
        | nil => exact absurd hsp (List.splitOnP_ne_nil p l)
        | cons x xs => exact ⟨x, xs, rfl⟩
      rw [heq] at ht
      simp only [List.modifyHead] at ht
      rcases List.mem_cons.mp ht with h | h
      · subst h
        rcases List.mem_cons.mp hc with h | h
        · subst h; exact List.mem_cons_self c l
        · exact List.mem_cons_of_mem a (ih (heq ▸ List.mem_cons_self h0 ts) c h)
      · exact List.mem_cons_of_mem a (ih (heq ▸ List.mem_cons_of_mem h0 h) c hc)

theorem mem_split_whitespace {l t : List Char} (ht : t ∈ split_whitespace l) :
    t ≠ [] ∧ (∀ c ∈ t, wsChar c = false) ∧ ∀ c ∈ t, c ∈ l := by
  unfold split_whitespace at ht
  have := List.mem_filter.mp ht
  refine ⟨?_, mem_splitOnP_not this.1, mem_splitOnP_mem this.1⟩
  have h2 := this.2
  simp only [Bool.not_eq_true'] at h2
  exact fun hnil => by simp [hnil] at h2

theorem split_whitespace_joinSpaces :
    ∀ ts : List (List Char),
      (∀ t ∈ ts, t ≠ [] ∧ ∀ c ∈ t, wsChar c = false) →
      split_whitespace (joinSpaces ts) = ts := by
  intro ts
  induction ts with
  | nil => intro _; rfl
  | cons t ts ih =>
    intro h
    have ht := h t (List.mem_cons_self t ts)
    have htp : ∀ x ∈ t, ¬wsChar x := fun x hx => by simp [ht.2 x hx]
    cases ts with
    | nil =>
      show split_whitespace t = [t]
      unfold split_whitespace
      rw [List.splitOnP_eq_single _ _ htp]
      simp [List.filter_cons, List.isEmpty_iff, ht.1]
    | cons t2 ts2 =>
      show split_whitespace (t ++ ' ' :: joinSpaces (t2 :: ts2)) = t :: t2 :: ts2
      unfold split_whitespace
      rw [List.splitOnP_first _ _ htp ' ' (by decide) (joinSpaces (t2 :: ts2))]
      rw [List.filter_cons]
      have : (!t.isEmpty) = true := by
        simp [List.isEmpty_iff, ht.1]
      rw [if_pos this]
      have ihr := ih fun x hx => h x (List.mem_cons_of_mem t hx)
      unfold split_whitespace at ihr
      rw [ihr]

theorem mem_joinSpaces :
    ∀ (ts : List (List Char)) (c : Char), c ∈ joinSpaces ts →
      c = ' ' ∨ ∃ t ∈ ts, c ∈ t := by
  intro ts
  induction ts with
  | nil => intro c hc; cases hc
  | cons t ts ih =>
    intro c hc
    cases ts with
    | nil =>
      right; exact ⟨t, List.mem_cons_self t [], hc⟩
    | cons t2 ts2 =>
      rw [show joinSpaces (t :: t2 :: ts2) = t ++ ' ' :: joinSpaces (t2 :: ts2) from rfl] at hc
      rcases List.mem_append.mp hc with h | h
      · right; exact ⟨t, List.mem_cons_self t _, h⟩
      · rcases List.mem_cons.mp h with h | h
        · left; exact h
        · rcases ih c h with h | ⟨u, hu, hcu⟩
          · left; exact h
          · right; exact ⟨u, List.mem_cons_of_mem t hu, hcu⟩

theorem map_id_of_fixed {α : Type} {f : α → α} :
    ∀ {l : List α}, (∀ c ∈ l, f c = c) → l.map f = l := by
  intro l
  induction l with
  | nil => intro _; rfl
  | cons a l ih =>
    intro h
    rw [List.map_cons, h a (List.mem_cons_self a l),
      ih fun c hc => h c (List.mem_cons_of_mem a hc)]

theorem contains_iff_mem (stops : List (List Char)) (t : List Char) :
    stops.contains t = true ↔ t ∈ stops := by
  simp [List.contains]

/-! ## Lemmas: weekdays and the schedule cursor -/

/-- Numeric index of a weekday counted from Sunday, inverse to
`weekdayOfNat` on `0..6`. -/
def wdIndexN : Weekday → Nat
  | .sun => 0
  | .mon => 1
  | .tue => 2
  | .wed => 3
  | .thu => 4
  | .fri => 5
  | .sat => 6

theorem weekdayOfNat_eq_iff (n : Nat) (hn : n < 7) (w : Weekday) :
    weekdayOfNat n = w ↔ n = wdIndexN w := by
  interval_cases n <;> cases w <;> decide

theorem weekday_eq_iff (z : Int) (w : Weekday) :
    weekday z = w ↔ (z + 4) % 7 = (wdIndexN w : Int) := by
  unfold weekday
  have h0 : 0 ≤ (z + 4) % 7 := Int.emod_nonneg _ (by decide)
  have h7 : (z + 4) % 7 < 7 := Int.emod_lt_of_pos _ (by decide)
  rw [weekdayOfNat_eq_iff _ (by omega)]
  omega

theorem weekday_mon_add_two {z : Int} (h : weekday z = .mon) :
    weekday (z + 2) = .wed := by
  rw [weekday_eq_iff] at h ⊢
  simp only [wdIndexN] at h ⊢
  omega

theorem weekday_wed_add_two {z : Int} (h : weekday z = .wed) :
    weekday (z + 2) = .fri := by
  rw [weekday_eq_iff] at h ⊢
  simp only [wdIndexN] at h ⊢
  omega

theorem weekday_fri_add_three {z : Int} (h : weekday z = .fri) :
    weekday (z + 3) = .mon := by
  rw [weekday_eq_iff] at h ⊢
  simp only [wdIndexN] at h ⊢
  omega

theorem advance_of_mon_or_wed {dt : DT}
    (h : weekday dt.days = .mon ∨ weekday dt.days = .wed) :
    advance dt = ⟨dt.days + 2, dt.secs⟩ := by
  unfold advance
  rw [if_pos h]

theorem advance_of_fri {dt : DT} (h : weekday dt.days = .fri) :
    advance dt = ⟨dt.days + 3, dt.secs⟩ := by
  unfold advance
  rw [if_neg, if_pos h]
  rw [h]
  rintro (hc | hc) <;> cases hc

theorem inMWF_advance {dt : DT} (h : inMWF (weekday dt.days)) :
    inMWF (weekday (advance dt).days) := by
  rcases h with h | h | h
  · rw [advance_of_mon_or_wed (Or.inl h)]
    exact Or.inr (Or.inl (weekday_mon_add_two h))
  · rw [advance_of_mon_or_wed (Or.inr h)]
    exact Or.inr (Or.inr (weekday_wed_add_two h))
  · rw [advance_of_fri h]
    exact Or.inl (weekday_fri_add_three h)

theorem inMWF_advanceN :
    ∀ (n : Nat) (dt : DT), inMWF (weekday dt.days) →
      inMWF (weekday (advanceN n dt).days) := by
  intro n
  induction n with
  | zero => intro dt h; exact h
  | succ n ih => intro dt h; exact ih (advance dt) (inMWF_advance h)

/-! ## Lemmas: the post loop -/

theorem postLoop_nil (stops : List (List Char)) (dt : DT)
    (descs : List (List Char)) : postLoop stops dt [] descs = ⟨[], .ok⟩ :=
  rfl

theorem postLoop_cons_desc (stops : List (List Char)) (dt : DT)
    (name : List Char) (files : List (List Char)) (d : List Char)
    (ds : List (List Char)) :
    postLoop stops dt (name :: files) (d :: ds) =
      if (parseI32 (file_stem name)).isNone then ⟨[], .invalidInput intErrMsg⟩
      else if (file_stem name).length < 2 then ⟨[], .panicked⟩
      else
        ⟨mkPost stops dt name d :: (postLoop stops (advance dt) files ds).written,
          (postLoop stops (advance dt) files ds).outcome⟩ :=
  rfl

theorem postLoop_cons_nodesc (stops : List (List Char)) (dt : DT)
    (name : List Char) (files : List (List Char)) :
    postLoop stops dt (name :: files) [] =
      if (parseI32 (file_stem name)).isNone then ⟨[], .invalidInput intErrMsg⟩
      else if (file_stem name).length < 2 then ⟨[], .panicked⟩
      else ⟨[], .panicked⟩ :=
  rfl

theorem not_isNone_of_validStem {f : List Char} (hf : validStem f) :
    ¬((parseI32 (file_stem f)).isNone = true) := by
  have hfs : (parseI32 (file_stem f)).isSome = true := hf.1
  intro hn
  rw [Option.isNone_iff_eq_none] at hn
  rw [hn] at hfs
  simp at hfs

theorem postLoop_ok (stops : List (List Char)) :
    ∀ (files descs : List (List Char)) (dt : DT),
      (∀ f ∈ files, validStem f) → files.length ≤ descs.length →
      postLoop stops dt files descs = ⟨okRunPosts stops dt files descs, .ok⟩ := by
  intro files
  induction files with
  | nil => intro descs dt _ _; rfl
  | cons f fs ih =>
    intro descs dt hv hlen
    obtain ⟨d, ds, rfl⟩ : ∃ d ds, descs = d :: ds := by
      cases descs with
      | nil => simp at hlen
      | cons d ds => exact ⟨d, ds, rfl⟩
    have hf := hv f (List.mem_cons_self f fs)
    have h2 : ¬((file_stem f).length < 2) := by
      have := hf.2; omega
    rw [postLoop_cons_desc, if_neg (not_isNone_of_validStem hf), if_neg h2]
    rw [ih ds (advance dt) (fun x hx => hv x (List.mem_cons_of_mem f hx))
      (by simpa using hlen)]
    rfl

theorem postLoop_stops_at_bad_stem (stops : List (List Char))
    (badName : List Char) (rest : List (List Char))
    (hbad : parseI32 (file_stem badName) = none) :
    ∀ (good descs : List (List Char)) (dt : DT),
      (∀ f ∈ good, validStem f) → good.length ≤ descs.length →
      postLoop stops dt (good ++ badName :: rest) descs =
        ⟨okRunPosts stops dt good descs, .invalidInput intErrMsg⟩ := by
  intro good
  induction good with
  | nil =>
    intro descs dt _ _
    have hbn : (parseI32 (file_stem badName)).isNone = true := by
      rw [hbad]; rfl
    cases descs with
    | nil =>
      show postLoop stops dt (badName :: rest) [] = _
      rw [postLoop_cons_nodesc, if_pos hbn]
      rfl
    | cons d ds =>
      show postLoop stops dt (badName :: rest) (d :: ds) = _
      rw [postLoop_cons_desc, if_pos hbn]
      rfl
  | cons f fs ih =>
    intro descs dt hv hlen
    obtain ⟨d, ds, rfl⟩ : ∃ d ds, descs = d :: ds := by
      cases descs with
      | nil => simp at hlen
      | cons d ds => exact ⟨d, ds, rfl⟩
    have hf := hv f (List.mem_cons_self f fs)
    have h2 : ¬((file_stem f).length < 2) := by
      have := hf.2; omega
    show postLoop stops dt (f :: (fs ++ badName :: rest)) (d :: ds) = _
    rw [postLoop_cons_desc, if_neg (not_isNone_of_validStem hf), if_neg h2]
    rw [ih ds (advance dt) (fun x hx => hv x (List.mem_cons_of_mem f hx))
      (by simpa using hlen)]
    rfl

theorem mem_written_postLoop (stops : List (List Char)) :
    ∀ (files descs : List (List Char)) (dt : DT) (p : Post),
      p ∈ (postLoop stops dt files descs).written →
      ∃ dtp name d, p = mkPost stops dtp name d := by
  intro files
  induction files with
  | nil =>
    intro descs dt p hp
    cases hp
  | cons f fs ih =>
    intro descs dt p hp
    cases descs with
    | nil =>
      rw [postLoop_cons_nodesc] at hp
      by_cases h1 : (parseI32 (file_stem f)).isNone = true
      · rw [if_pos h1] at hp; cases hp
      · rw [if_neg h1] at hp
        by_cases h2 : (file_stem f).length < 2
        · rw [if_pos h2] at hp; cases hp
        · rw [if_neg h2] at hp; cases hp
    | cons d ds =>
      rw [postLoop_cons_desc] at hp
      by_cases h1 : (parseI32 (file_stem f)).isNone = true
      · rw [if_pos h1] at hp; cases hp
      · rw [if_neg h1] at hp
        by_cases h2 : (file_stem f).length < 2
        · rw [if_pos h2] at hp; cases hp
        · rw [if_neg h2] at hp
          rcases List.mem_cons.mp hp with h | h
          · exact ⟨dt, f, d, h⟩
          · exact ih ds (advance dt) p h

theorem dropLast_dropLast_eq_take {α : Type} (l : List α) :
    l.dropLast.dropLast = l.take (l.length - 2) := by
  rw [List.dropLast_eq_take, List.dropLast_eq_take, List.take_take,
    List.length_take]
  congr 1
  omega

theorem okRunPosts_get (stops : List (List Char)) :
    ∀ (files descs : List (List Char)) (dt : DT) (i : Nat),
      (okRunPosts stops dt files descs).get? i =
        (files.get? i).bind fun f =>
          (descs.get? i).map fun d => mkPost stops (advanceN i dt) f d := by
  intro files
  induction files with
  | nil => intro descs dt i; simp [okRunPosts]
  | cons f fs ih =>
    intro descs dt i
    cases descs with
    | nil => cases i <;> simp [okRunPosts]
    | cons d ds =>
      cases i with
      | zero => simp [okRunPosts, advanceN]
      | succ i =>
        show (okRunPosts stops (advance dt) fs ds).get? i = _
        rw [ih ds (advance dt) i]
        rfl

/-! ## Claim theorems -/

/-- C1: For every start date `d`, the post command's start-date validation
succeeds if and only if `d`'s weekday is Monday, Wednesday, or Friday; when
it fails (for example on a Tuesday such as 2024-01-02), `post` returns an
invalid-input error and zero post files are written, leaving the working
directory unchanged. -/
theorem post_rejects_non_mwf_start :
    ∀ (stops : List (List Char)) (z : Int) (entries : List DirEntry)
      (descs : List (List Char)),
      (validate_start z = true ↔
        (weekday z = .mon ∨ weekday z = .wed ∨ weekday z = .fri)) ∧
      (validate_start z = false →
        post stops z entries descs = ⟨[], .invalidInput dateErrMsg⟩) ∧
      weekday (daysFromCivil 2024 1 2) = .tue ∧
      post stops (daysFromCivil 2024 1 2) entries descs =
        ⟨[], .invalidInput dateErrMsg⟩ := by
  have key : ∀ (stops : List (List Char)) (z : Int) (entries : List DirEntry)
      (descs : List (List Char)), validate_start z = false →
      post stops z entries descs = ⟨[], .invalidInput dateErrMsg⟩ := by
    intro stops z entries descs h
    unfold post
    simp [h]
  intro stops z entries descs
  refine ⟨?_, key stops z entries descs, by decide,
    key stops _ entries descs (by decide)⟩
  simp [validate_start]

theorem post_rejects_non_mwf_start_witness :
    post [] (daysFromCivil 2024 1 2) [.readable "42.jpg".data] ["x".data] =
      ⟨[], .invalidInput dateErrMsg⟩ :=
  (post_rejects_non_mwf_start [] (daysFromCivil 2024 1 2)
    [.readable "42.jpg".data] ["x".data]).2.1 (by decide)

/-- C2: The scheduler's advance step is a pure function of the current
weekday: Monday or Wednesday add 2 days, Friday adds 3 days (the time of
day is unchanged); one step maps Mon to Wed, Wed to Fri and Fri to Mon, and
from any date whose weekday is in the set Mon/Wed/Fri, every number of
repeated applications stays in that set, so the cycle never produces
another weekday. -/
theorem advance_weekday_cadence :
    ∀ dt : DT,
      ((weekday dt.days = .mon ∨ weekday dt.days = .wed) →
        advance dt = ⟨dt.days + 2, dt.secs⟩) ∧
      (weekday dt.days = .fri → advance dt = ⟨dt.days + 3, dt.secs⟩) ∧
      (weekday dt.days = .mon → weekday (advance dt).days = .wed) ∧
      (weekday dt.days = .wed → weekday (advance dt).days = .fri) ∧
      (weekday dt.days = .fri → weekday (advance dt).days = .mon) ∧
      ∀ n : Nat, inMWF (weekday dt.days) →
        inMWF (weekday (advanceN n dt).days) := by
  intro dt
  refine ⟨fun h => advance_of_mon_or_wed h, fun h => advance_of_fri h,
    ?_, ?_, ?_, fun n h => inMWF_advanceN n dt h⟩
  · intro h
    rw [advance_of_mon_or_wed (Or.inl h)]
    exact weekday_mon_add_two h
  · intro h
    rw [advance_of_mon_or_wed (Or.inr h)]
    exact weekday_wed_add_two h
  · intro h
    rw [advance_of_fri h]
    exact weekday_fri_add_three h

theorem advance_weekday_cadence_witness :
    weekday (advance ⟨19723, 25200⟩).days = Weekday.wed ∧
    inMWF (weekday (advanceN 7 ⟨19723, 25200⟩).days) :=
  ⟨(advance_weekday_cadence ⟨19723, 25200⟩).2.2.1 (by decide),
    (advance_weekday_cadence ⟨19723, 25200⟩).2.2.2.2.2 7 (by decide)⟩

/-- C6: The file enumerator returns exactly the readable directory entries
whose name ends with the literal, case-sensitive suffix `.jpg` (so
`photo.png` and `photo.JPG` are excluded), and an unreadable directory
entry is silently skipped rather than aborting the scan. -/
theorem jpg_enumeration_filter :
    ∀ (entries rest : List DirEntry) (name : List Char),
      (name ∈ get_jpg_files_in_current_directory entries ↔
        DirEntry.readable name ∈ entries ∧
          ".jpg".data.isSuffixOf name = true) ∧
      get_jpg_files_in_current_directory (DirEntry.unreadable :: rest) =
        get_jpg_files_in_current_directory rest ∧
      get_jpg_files_in_current_directory
        [.readable "photo.png".data, .readable "photo.JPG".data,
          .readable "photo.jpg".data] = ["photo.jpg".data] := by
  intro entries rest name
  refine ⟨⟨?_, ?_⟩, rfl, by decide⟩
  · intro h
    obtain ⟨e, he, hfe⟩ := List.mem_filterMap.mp h
    cases e with
    | readable m =>
      by_cases hs : ".jpg".data.isSuffixOf m = true
      · simp only [hs, if_pos] at hfe
        obtain rfl : m = name := by
          simpa using hfe
        exact ⟨he, hs⟩
      · simp only [if_neg hs] at hfe
        cases hfe
    | unreadable => cases hfe
  · rintro ⟨he, hs⟩
    exact List.mem_filterMap.mpr ⟨.readable name, he, by simp [hs]⟩

theorem jpg_enumeration_filter_witness :
    "photo.jpg".data ∈ get_jpg_files_in_current_directory
      [.readable "photo.png".data, .readable "photo.jpg".data,
        .unreadable] :=
  (jpg_enumeration_filter
    [.readable "photo.png".data, .readable "photo.jpg".data, .unreadable]
    [] "photo.jpg".data).1.mpr ⟨by decide, by decide⟩

/-- C3: For every input string and stop-word set, tag extraction equals the
reference definition of specification section 4.3 (ASCII-lowercase, replace
every maximal punctuation run with the empty string, split on whitespace in
order, keep exactly the tokens not in the stop-word set, without
deduplication); no output tag is a stop word, and the empty description
yields the empty tag sequence (the functions are total, so no input can
fail). -/
theorem extract_tags_matches_spec :
    ∀ (stops : List (List Char)) (text : List Char),
      extract_tags stops text = extract_tags_spec stops text ∧
      (∀ t ∈ extract_tags stops text, t ∉ stops) ∧
      extract_tags stops [] = [] := by
  intro stops text
  refine ⟨?_, ?_, rfl⟩
  · unfold extract_tags extract_tags_spec remove_punctuation
    rw [replacePunctRuns_eq_filter]
  · intro t ht hmem
    have h2 := (List.mem_filter.mp ht).2
    simp only [Bool.not_eq_true'] at h2
    have := (contains_iff_mem stops t).mpr hmem
    rw [h2] at this
    cases this

theorem extract_tags_matches_spec_witness :
    extract_tags ["a".data] "A red fox, jumping!".data =
      extract_tags_spec ["a".data] "A red fox, jumping!".data ∧
    ¬("red".data ∈ ["a".data]) :=
  ⟨(extract_tags_matches_spec ["a".data] "A red fox, jumping!".data).1,
    (extract_tags_matches_spec ["a".data] "A red fox, jumping!".data).2.1
      "red".data (by decide)⟩

/-- C4: Tag extraction is idempotent on its own output: joining the
extracted tags with single spaces and extracting again, with the same
stop-word set, yields the same tag sequence. -/
theorem extract_tags_idempotent :
    ∀ (stops : List (List Char)) (text : List Char),
      extract_tags stops (joinSpaces (extract_tags stops text)) =
        extract_tags stops text := by
  intro stops text
  have hT : ∀ t ∈ extract_tags stops text,
      (t ≠ [] ∧ ∀ c ∈ t, wsChar c = false) ∧ (∀ c ∈ t, isPunct c = false) ∧
        (∀ c ∈ t, toAsciiLower c = c) ∧ (!stops.contains t) = true := by
    intro t ht
    have hm := List.mem_filter.mp ht
    have hsw := mem_split_whitespace hm.1
    refine ⟨⟨hsw.1, hsw.2.1⟩, ?_, ?_, hm.2⟩
    · intro c hc
      have hcm := hsw.2.2 c hc
      unfold remove_punctuation at hcm
      have := (List.mem_filter.mp hcm).2
      simpa using this
    · intro c hc
      have hcm := hsw.2.2 c hc
      unfold remove_punctuation at hcm
      have hcl := (List.mem_filter.mp hcm).1
      obtain ⟨c0, _, rfl⟩ := List.mem_map.mp hcl
      exact toAsciiLower_idem c0
  have hjoin : ∀ c ∈ joinSpaces (extract_tags stops text),
      toAsciiLower c = c ∧ isPunct c = false := by
    intro c hc
    rcases mem_joinSpaces _ c hc with h | ⟨t, htm, hct⟩
    · subst h
      exact ⟨by decide, by decide⟩
    · have h := hT t htm
      exact ⟨h.2.2.1 c hct, h.2.1 c hct⟩
  have hfix : (joinSpaces (extract_tags stops text)).map toAsciiLower =
      joinSpaces (extract_tags stops text) :=
    map_id_of_fixed fun c hc => (hjoin c hc).1
  have hfil : (joinSpaces (extract_tags stops text)).filter
      (fun c => !isPunct c) = joinSpaces (extract_tags stops text) :=
    List.filter_eq_self.mpr fun c hc => by simp [(hjoin c hc).2]
  show (split_whitespace (remove_punctuation
      ((joinSpaces (extract_tags stops text)).map toAsciiLower))).filter
      (fun t => !stops.contains t) = extract_tags stops text
  rw [hfix]
  unfold remove_punctuation
  rw [hfil, split_whitespace_joinSpaces _ fun t ht => (hT t ht).1]
  exact List.filter_eq_self.mpr fun t ht => (hT t ht).2.2.2

/-- C8: For every processed file of any run, the `significant_digit_title`
binding equals the file's stem (the post title) with its last two
characters removed; a stem `421` gives `4`, and a 2-character stem gives
the empty string. -/
theorem significant_digit_title_truncation :
    ∀ (stops : List (List Char)) (z : Int) (entries : List DirEntry)
      (descs : List (List Char)) (p : Post),
      p ∈ (post stops z entries descs).written →
      p.significant_digit_title = p.title.dropLast.dropLast ∧
      (p.title.length = 2 → p.significant_digit_title = []) ∧
      (p.title = "421".data → p.significant_digit_title = "4".data) := by
  intro stops z entries descs p hp
  have hmk : ∃ dtp name d, p = mkPost stops dtp name d := by
    unfold post at hp
    by_cases hv : validate_start z = true
    · rw [if_pos hv] at hp
      exact mem_written_postLoop stops _ _ _ p hp
    · rw [if_neg hv] at hp
      cases hp
  obtain ⟨dtp, name, d, rfl⟩ := hmk
  refine ⟨?_, ?_, ?_⟩
  · show (file_stem name).take ((file_stem name).length - 2) =
      (file_stem name).dropLast.dropLast
    rw [dropLast_dropLast_eq_take]
  · intro h
    have h2 : (file_stem name).length = 2 := h
    show (file_stem name).take ((file_stem name).length - 2) = []
    rw [h2]
    rfl
  · intro h
    have h421 : file_stem name = "421".data := h
    show (file_stem name).take ((file_stem name).length - 2) = "4".data
    rw [h421]
    rfl

theorem significant_digit_title_truncation_witness :
    (mkPost [] (initDT 19723) "421.jpg".data "x".data).significant_digit_title =
      (mkPost [] (initDT 19723) "421.jpg".data "x".data).title.dropLast.dropLast ∧
    ((mkPost [] (initDT 19723) "421.jpg".data "x".data).title.length = 2 →
      (mkPost [] (initDT 19723) "421.jpg".data "x".data).significant_digit_title = []) ∧
    ((mkPost [] (initDT 19723) "421.jpg".data "x".data).title = "421".data →
      (mkPost [] (initDT 19723) "421.jpg".data "x".data).significant_digit_title =
        "4".data) :=
  significant_digit_title_truncation [] 19723 [.readable "421.jpg".data]
    ["x".data] (mkPost [] (initDT 19723) "421.jpg".data "x".data) (by decide)

/-- C5: When `post` runs with a Monday start date and the enumerator yields
exactly the two files `100.jpg` and `101.jpg` in order, the first post is
rendered with the scheduled datetime of that Monday at 07:00 and the second
with the following Wednesday at 07:00, the scheduler having been advanced
exactly once between the two files (once per processed file, after
rendering). -/
theorem post_two_files_monday_schedule :
    ∀ (stops : List (List Char)) (z : Int) (d1 d2 : List Char),
      weekday z = .mon →
      post stops z [.readable "100.jpg".data, .readable "101.jpg".data]
          [d1, d2] =
        ⟨[mkPost stops (initDT z) "100.jpg".data d1,
          mkPost stops (advance (initDT z)) "101.jpg".data d2], .ok⟩ ∧
      advance (initDT z) = ⟨z + 2, 25200⟩ ∧
      weekday (z + 2) = .wed ∧
      (mkPost stops (initDT z) "100.jpg".data d1).upload_date =
        z * 86400 + 25200 ∧
      (mkPost stops (advance (initDT z)) "101.jpg".data d2).upload_date =
        (z + 2) * 86400 + 25200 := by
  intro stops z d1 d2 h
  have hv : validate_start z = true := by
    simp [validate_start, h]
  have hadv : advance (initDT z) = ⟨z + 2, 25200⟩ :=
    advance_of_mon_or_wed (Or.inl h)
  refine ⟨?_, hadv, weekday_mon_add_two h, rfl, ?_⟩
  · unfold post
    rw [if_pos hv]
    have hfiles : get_jpg_files_in_current_directory
        [.readable "100.jpg".data, .readable "101.jpg".data] =
        ["100.jpg".data, "101.jpg".data] := rfl
    rw [hfiles,
      postLoop_ok stops ["100.jpg".data, "101.jpg".data] [d1, d2] (initDT z)
        (by decide) (by simp)]
    rfl
  · rw [hadv]
    rfl

theorem post_two_files_monday_schedule_witness :
    post [] 19723 [.readable "100.jpg".data, .readable "101.jpg".data]
        ["a".data, "b".data] =
      ⟨[mkPost [] (initDT 19723) "100.jpg".data "a".data,
        mkPost [] (advance (initDT 19723)) "101.jpg".data "b".data], .ok⟩ ∧
    advance (initDT 19723) = ⟨19725, 25200⟩ ∧
    weekday 19725 = .wed ∧
    (mkPost [] (initDT 19723) "100.jpg".data "a".data).upload_date =
      19723 * 86400 + 25200 ∧
    (mkPost [] (advance (initDT 19723)) "101.jpg".data "b".data).upload_date =
      19725 * 86400 + 25200 :=
  post_two_files_monday_schedule [] 19723 "a".data "b".data (by decide)

/-- C7: If an enumerated file's stem does not parse as a signed 32-bit
integer, the whole run fails with the invalid-input error at that file and
the remaining files are not processed; the posts for the files before it in
enumeration order are exactly the ones a run on that prefix alone would
have written, and they remain (nothing rolls them back). -/
theorem post_aborts_on_noninteger_stem :
    ∀ (stops : List (List Char)) (z : Int) (entries : List DirEntry)
      (good : List (List Char)) (badName : List Char)
      (rest descs : List (List Char)),
      validate_start z = true →
      get_jpg_files_in_current_directory entries = good ++ badName :: rest →
      (∀ f ∈ good, validStem f) →
      parseI32 (file_stem badName) = none →
      good.length ≤ descs.length →
      post stops z entries descs =
        ⟨okRunPosts stops (initDT z) good descs, .invalidInput intErrMsg⟩ ∧
      postLoop stops (initDT z) good descs =
        ⟨okRunPosts stops (initDT z) good descs, .ok⟩ := by
  intro stops z entries good badName rest descs hv hfiles hgood hbad hlen
  constructor
  · unfold post
    rw [if_pos hv, hfiles]
    exact postLoop_stops_at_bad_stem stops badName rest hbad good descs
      (initDT z) hgood hlen
  · exact postLoop_ok stops good descs (initDT z) hgood hlen

theorem post_aborts_on_noninteger_stem_witness :
    post [] 19723
        [.readable "100.jpg".data, .readable "abc.jpg".data,
          .readable "101.jpg".data] ["x".data, "y".data] =
      ⟨okRunPosts [] (initDT 19723) ["100.jpg".data] ["x".data, "y".data],
        .invalidInput intErrMsg⟩ ∧
    postLoop [] (initDT 19723) ["100.jpg".data] ["x".data, "y".data] =
      ⟨okRunPosts [] (initDT 19723) ["100.jpg".data] ["x".data, "y".data],
        .ok⟩ :=
  post_aborts_on_noninteger_stem [] 19723
    [.readable "100.jpg".data, .readable "abc.jpg".data,
      .readable "101.jpg".data]
    ["100.jpg".data] "abc.jpg".data ["101.jpg".data] ["x".data, "y".data]
    (by decide) (by decide) (by decide) (by decide) (by decide)

/-- C9: For every processed file, the output post file is named by
concatenating the scheduled datetime's rendered string, a hyphen, the image
stem and `.md` (the datetime scheduled for the i-th file being the start
datetime advanced i times); in the scenario with start date 2024-01-01 and
the single file `42.jpg`, the output file name renders the
2024-01-01 07:00:00 timestamp and embeds the stem `42`. -/
theorem post_output_filenames :
    ∀ (stops : List (List Char)) (z : Int) (entries : List DirEntry)
      (descs : List (List Char)),
      (validate_start z = true →
        (∀ f ∈ get_jpg_files_in_current_directory entries, validStem f) →
        (get_jpg_files_in_current_directory entries).length ≤ descs.length →
        ∀ i : Nat,
          ((post stops z entries descs).written.get? i).map Post.fileName =
            ((get_jpg_files_in_current_directory entries).get? i).map fun f =>
              renderDateTime (advanceN i (initDT z)) ++
                '-' :: file_stem f ++ ".md".data) ∧
      (post stops (daysFromCivil 2024 1 1) [.readable "42.jpg".data]
          ["A red fox, jumping!".data]).written.map Post.fileName =
        ["2024-01-01 07:00:00-42.md".data] := by
  intro stops z entries descs
  constructor
  · intro hv hval hlen i
    unfold post
    rw [if_pos hv,
      postLoop_ok stops (get_jpg_files_in_current_directory entries) descs
        (initDT z) hval hlen]
    show ((okRunPosts stops (initDT z)
        (get_jpg_files_in_current_directory entries) descs).get? i).map
        Post.fileName = _
    rw [okRunPosts_get]
    cases hf : (get_jpg_files_in_current_directory entries).get? i with
    | none => rfl
    | some f =>
      have hi : i < (get_jpg_files_in_current_directory entries).length := by
        by_contra hcon
        rw [List.get?_eq_none.mpr (by omega)] at hf
        cases hf
      have hid : i < descs.length := lt_of_lt_of_le hi hlen
      obtain ⟨d, hd⟩ : ∃ d, descs.get? i = some d :=
        ⟨descs.get ⟨i, hid⟩, List.get?_eq_get hid⟩
      rw [hd]
      rfl
  · rfl

theorem post_output_filenames_witness :
    ((post [] 19723 [.readable "42.jpg".data] ["hello".data]).written.get?
        0).map Post.fileName =
      ((get_jpg_files_in_current_directory
          [.readable "42.jpg".data]).get? 0).map fun f =>
        renderDateTime (advanceN 0 (initDT 19723)) ++
          '-' :: file_stem f ++ ".md".data :=
  (post_output_filenames [] 19723 [.readable "42.jpg".data]
    ["hello".data]).1 (by decide) (by decide) (by decide) 0

/-- C10: The significant-digits truncation is only well-defined for stems
of at least two characters: under the per-file preconditions (stems parse
and have length at least two, enough input lines) a run never panics, but a
one-character stem such as `4` passes the signed-integer parse check and
then makes `file_name.len() - 2` underflow, so the slice panics instead of
taking the invalid-input error path. -/
theorem one_char_stem_panics :
    ∀ (stops : List (List Char)) (z : Int) (entries : List DirEntry)
      (descs : List (List Char)),
      parseI32 "4".data = some 4 ∧
      post stops (daysFromCivil 2024 1 1) [.readable "4.jpg".data]
          ["x".data] = ⟨[], .panicked⟩ ∧
      ((∀ f ∈ get_jpg_files_in_current_directory entries, validStem f) →
        (get_jpg_files_in_current_directory entries).length ≤ descs.length →
        (post stops z entries descs).outcome ≠ .panicked) := by
  intro stops z entries descs
  refine ⟨by decide, rfl, ?_⟩
  intro hval hlen
  unfold post
  by_cases hv : validate_start z = true
  · rw [if_pos hv,
      postLoop_ok stops (get_jpg_files_in_current_directory entries) descs
        (initDT z) hval hlen]
    simp
  · rw [if_neg hv]
    simp

theorem one_char_stem_panics_witness :
    parseI32 "4".data = some 4 ∧
    post [] 19723 [.readable "4.jpg".data] ["x".data] = ⟨[], .panicked⟩ ∧
    (post [] 19723 [.readable "42.jpg".data] ["x".data]).outcome ≠
      RunOutcome.panicked :=
  ⟨(one_char_stem_panics [] 19723 [.readable "42.jpg".data] ["x".data]).1,
    by decide,
    (one_char_stem_panics [] 19723 [.readable "42.jpg".data]
      ["x".data]).2.2 (by decide) (by decide)⟩

end Pix
